import Mathlib

set_option autoImplicit false

/-!
Shallow embedding of the memory-mcp repository's consistency core
(in-memory cache, durable write queue, async writer) and proofs of the
specification claims about it.

Strings are modelled as lists of characters (`Str`), matching the
JavaScript view of a string as a sequence of code units; `Char.toLower`
stands in for `String.prototype.toLowerCase` (they agree on ASCII, and
the category normalizer replaces every non-ASCII character with a dash
anyway).
-/

/-- JavaScript strings as character lists. -/
abbrev Str := List Char

/-- Embed a Lean string literal as a `Str`. -/
def str (s : String) : Str := s.data

/-- Model of `s.toLowerCase()`. -/
def lowerStr (s : Str) : Str := s.map Char.toLower

/-- UTF-8 byte length of one character (scalar value), as counted by
`Buffer.byteLength(·, 'utf-8')`. -/
def utf8CharLen (c : Char) : Nat :=
  if c.toNat < 128 then 1
  else if c.toNat < 2048 then 2
  else if c.toNat < 65536 then 3
  else 4

/-- Model of `Buffer.byteLength(s, 'utf-8')`. -/
def utf8Len (s : Str) : Nat := (s.map utf8CharLen).sum

/-- Model of `s.split(sep)` for a one-character separator: `"" ↦ [""]`,
`"a/b" ↦ ["a","b"]`, `"/x" ↦ ["","x"]`. -/
def splitChar (sep : Char) : Str → List Str
  | [] => [[]]
  | c :: rest =>
    let r := splitChar sep rest
    if c = sep then [] :: r
    else
      match r with
      | [] => [[c]]
      | s :: ss => (c :: s) :: ss

/-- Helper for `indexOf`: first position `≥ i` (counting from `i` at the
head of `hay`) where `needle` occurs. -/
def firstIdxFrom (needle : Str) : Str → Nat → Option Nat
  | [], i => if needle.isPrefixOf ([] : Str) then some i else none
  | c :: t, i =>
    if needle.isPrefixOf (c :: t) then some i else firstIdxFrom needle t (i + 1)

/-- Model of `hay.indexOf(needle)`, with `none` for JavaScript's `-1`.
The empty needle occurs at position 0, as in JavaScript. -/
def firstIdx (needle hay : Str) : Option Nat := firstIdxFrom needle hay 0

/-- Model of `hay.includes(needle)`. -/
def containsSub (hay needle : Str) : Bool := (firstIdx needle hay).isSome

/-- Model of `s.slice(a, b)` for `0 ≤ a ≤ b` (the only use in this code). -/
def jsSlice (s : Str) (a b : Nat) : Str := (s.drop a).take (b - a)

/-- JavaScript's default string comparison (lexicographic by code unit),
as a boolean less-or-equal. -/
def strLe : Str → Str → Bool
  | [], _ => true
  | _ :: _, [] => false
  | a :: s, b :: t => if a < b then true else if b < a then false else strLe s t

/-- The comparison `strLe` as a relation, for sorting. -/
def strLeProp (a b : Str) : Prop := strLe a b = true

instance : DecidableRel strLeProp := fun a b =>
  inferInstanceAs (Decidable (strLe a b = true))

/-- Model of `Array.prototype.sort()` with default comparator: sort lexicographically. -/
def sortStr (l : List Str) : List Str := List.insertionSort strLeProp l

/-- JavaScript `Set` insertion on a list kept in insertion order. -/
def setAdd (l : List Str) (x : Str) : List Str := if x ∈ l then l else l ++ [x]

/-! ## In-memory cache (src/cache.ts)

The JavaScript `Map` backing `MemoryCache` is modelled as an association
list in insertion order: `Map.set` on an existing key updates it in place
(keeping its position), otherwise appends; iteration follows that order. -/

/-- The `CacheEntry` interface from src/cache.ts. -/
structure CacheEntry where
  content : Str
  sha : Str
deriving DecidableEq, Repr

/-- The `SearchResult` interface from src/cache.ts. -/
structure SearchResult where
  path : Str
  snippet : Str
deriving DecidableEq, Repr

/-- The cache's backing `Map<string, CacheEntry>`. -/
abbrev CacheMap := List (Str × CacheEntry)

/-- Model of `Map.get`. -/
def mapGet (cache : CacheMap) (path : Str) : Option CacheEntry :=
  (cache.find? (fun kv => decide (kv.fst = path))).map (·.snd)

/-- Model of `Map.set`: update the existing key in place (keeping its position in
the iteration order), else append at the end. -/
def mapSet : CacheMap → Str → CacheEntry → CacheMap
  | [], path, e => [(path, e)]
  | kv :: rest, path, e =>
    if kv.fst = path then (path, e) :: rest else kv :: mapSet rest path e

/-- Model of `Map.delete` (the resulting map; the boolean result is `mapHas`). -/
def mapDelete (cache : CacheMap) (path : Str) : CacheMap :=
  cache.filter (fun kv => decide (kv.fst ≠ path))

/-- Model of `Map.has`. -/
def mapHas (cache : CacheMap) (path : Str) : Bool :=
  cache.any (fun kv => decide (kv.fst = path))

namespace MemoryCache

/-- Source `MemoryCache.get` (logging omitted: it only writes to stderr). -/
def get (cache : CacheMap) (path : Str) : Option CacheEntry := mapGet cache path

/-- Source `MemoryCache.set`. -/
def set (cache : CacheMap) (path content sha : Str) : CacheMap :=
  mapSet cache path ⟨content, sha⟩

/-- Source `MemoryCache.delete`: the new state and whether a removal occurred. -/
def del (cache : CacheMap) (path : Str) : CacheMap × Bool :=
  (mapDelete cache path, mapHas cache path)

/-- Source `MemoryCache.keys`. -/
def keys (cache : CacheMap) : List Str := cache.map (·.fst)

/-- One step of the `categories` loop: `parts = path.split('/')`;
when `parts.length > 1` add `parts[0]` to the `Set`. -/
def catStep (acc : List Str) (kv : Str × CacheEntry) : List Str :=
  match splitChar '/' kv.fst with
  | [] => acc
  | [_] => acc
  | p0 :: _ :: _ => setAdd acc p0

/-- Source `MemoryCache.categories`: collect `parts[0]` of every key with more
than one slash-separated part into a `Set`, then sort. -/
def categories (cache : CacheMap) : List Str :=
  sortStr (cache.foldl catStep [])

/-- Source `MemoryCache.extractSnippet`.  The `matchIndex` argument is `none`
when the caller omits it (the code then recomputes the first
case-insensitive occurrence; JavaScript's `-1` sentinel for "absent" is
the `none` of the recomputed option — callers only ever pass a real
index).  Natural subtraction `idx - 50` coincides with the source's
`Math.max(0, matchIndex - 50)`. -/
def extractSnippet (content query : Str) (matchIndex : Option Nat) : Str :=
  let maxLength := 150
  if content.length ≤ maxLength then content
  else
    let mi :=
      match matchIndex with
      | some i => some i
      | none => firstIdx (lowerStr query) (lowerStr content)
    match mi with
    | none => jsSlice content 0 maxLength ++ str "..."
    | some idx =>
      let snippetStart := idx - 50
      let snippetEnd := min content.length (idx + query.length + 100)
      let snippet := jsSlice content snippetStart snippetEnd
      let snippet := if 0 < snippetStart then str "..." ++ snippet else snippet
      if snippetEnd < content.length then snippet ++ str "..." else snippet

/-- Source `MemoryCache.search`: path match first (short-circuits content
matching), then content match; results in cache iteration order. -/
def search (cache : CacheMap) (query : Str) : List SearchResult :=
  let queryLower := lowerStr query
  cache.filterMap
    (fun kv =>
      if containsSub (lowerStr kv.fst) queryLower then
        some ⟨kv.fst, extractSnippet kv.snd.content query none⟩
      else
        match firstIdx queryLower (lowerStr kv.snd.content) with
        | some matchIndex =>
          some ⟨kv.fst, extractSnippet kv.snd.content query (some matchIndex)⟩
        | none => none)

end MemoryCache

/-! ## Durable write queue (src/queue.ts)

Disk persistence (`load`/`save`) only mirrors the in-memory list and its
failures are swallowed, so the model is the in-memory item list; the
`Date.now()` timestamp is passed in by the caller. -/

/-- The `operation` tag of a queue item (and of a background sync). -/
inductive FileOp
  | save
  | delete
deriving DecidableEq, Repr

/-- The `QueueItem` interface from src/queue.ts. -/
structure QueueItem where
  path : Str
  content : Str
  operation : FileOp
  timestamp : Nat
  retryCount : Nat
deriving DecidableEq, Repr

/-- The `MAX_RETRIES` constant from src/queue.ts. -/
def MAX_RETRIES : Nat := 3

namespace WriteQueue

/-- Source `WriteQueue.enqueue`: drop any existing item for the path, append a
fresh item with `retryCount 0` and the current timestamp. -/
def enqueue (items : List QueueItem) (path content : Str) (operation : FileOp)
    (now : Nat) : List QueueItem :=
  items.filter (fun item => decide (item.path ≠ path)) ++
    [⟨path, content, operation, now, 0⟩]

/-- Source `WriteQueue.remove`. -/
def removeItem (items : List QueueItem) (path : Str) : List QueueItem :=
  items.filter (fun item => decide (item.path ≠ path))

/-- Effect of `item.retryCount++` through the reference returned by
`items.find(...)`: bump the first item with the given path. -/
def bumpFirst (path : Str) : List QueueItem → List QueueItem
  | [] => []
  | i :: rest =>
    if i.path = path then { i with retryCount := i.retryCount + 1 } :: rest
    else i :: bumpFirst path rest

/-- Source `WriteQueue.incrementRetry`: new queue state and returned boolean. -/
def incrementRetry (items : List QueueItem) (path : Str) :
    List QueueItem × Bool :=
  match items.find? (fun i => decide (i.path = path)) with
  | none => (items, false)
  | some item =>
    let items' := bumpFirst path items
    if MAX_RETRIES ≤ item.retryCount + 1 then
      (items'.filter (fun i => decide (i.path ≠ path)), false)
    else (items', true)

end WriteQueue

/-- One queue operation, for stating invariants over operation sequences. -/
inductive QOp
  | enq (path content : Str) (operation : FileOp) (now : Nat)
  | rem (path : Str)
  | inc (path : Str)

/-- Apply one queue operation. -/
def qstep (items : List QueueItem) : QOp → List QueueItem
  | .enq p c o t => WriteQueue.enqueue items p c o t
  | .rem p => WriteQueue.removeItem items p
  | .inc p => (WriteQueue.incrementRetry items p).fst

/-- Apply a sequence of queue operations. -/
def qrun (items : List QueueItem) (ops : List QOp) : List QueueItem :=
  ops.foldl qstep items

/-- At most one queue item per path. -/
def PathsNodup (items : List QueueItem) : Prop :=
  (items.map QueueItem.path).Nodup

/-- Every queued item is strictly below the retry bound. -/
def RetryBounded (items : List QueueItem) : Prop :=
  ∀ i ∈ items, i.retryCount < MAX_RETRIES

/-! ## Async writer (src/writer.ts) and its world

The writer's fire-and-forget background syncs suspend at their first
`await` (the remote call); a suspended sync is a `SyncTask`.  Remote
calls made by the synchronous drain loop and outcomes of suspended syncs
are injected as events, since the remote store is an external
collaborator.  The index builder's only cache effect is at its reserved
slash-free path `index.json`; its serialized content and returned
revision token arrive with the completion event (the content embeds a
wall-clock timestamp). -/

/-- A remote-store call, recorded for frame-effect claims. -/
inductive RemoteCall
  | putFile (path : Str)
  | deleteFile (path : Str)
deriving DecidableEq, Repr

/-- A background sync suspended at its remote call (`syncToGitHub` after
the `pendingWrites` guard, or `deleteFromGitHub` likewise; for deletes
the captured sha is always present and the content field is unused). -/
structure SyncTask where
  path : Str
  content : Str
  sha : Option Str
  operation : FileOp
deriving DecidableEq, Repr

/-- The state an `AsyncWriter` run touches. -/
structure World where
  cache : CacheMap
  queue : List QueueItem
  pendingWrites : List Str
  tasks : List SyncTask
  remoteLog : List RemoteCall
  indexRebuilds : Nat
  clock : Nat
deriving Repr

/-- The empty initial world. -/
def emptyWorld : World := ⟨[], [], [], [], [], 0, 0⟩

/-- The `MAX_FILE_SIZE` constant from src/writer.ts: 1 MiB. -/
def MAX_FILE_SIZE : Nat := 1 * 1024 * 1024

/-- The `INDEX_PATH` constant from src/index-gen.ts. -/
def INDEX_PATH : Str := str "index.json"

/-- Model of `category.toLowerCase().replace(/[^a-z0-9-]/g, '-')`. -/
def normalizeCategory (category : Str) : Str :=
  (category.map Char.toLower).map
    (fun c =>
      if ('a' ≤ c ∧ c ≤ 'z') ∨ ('0' ≤ c ∧ c ≤ '9') ∨ c = '-' then c else '-')

/-- Append `.md` unless the name already ends in `.md`, `.yaml` or `.json`. -/
def normalizeName (name : Str) : Str :=
  if List.isSuffixOf (str ".md") name || List.isSuffixOf (str ".yaml") name
      || List.isSuffixOf (str ".json") name then
    name
  else name ++ str ".md"

/-- The path composed by `AsyncWriter.save`. -/
def composePath (category name : Str) : Str :=
  normalizeCategory category ++ '/' :: normalizeName name

/-- The oversize error message; `Math.round(contentSize / 1024)` on an
exact binary fraction rounds half up, i.e. `(contentSize + 512) / 1024`. -/
def saveErrorMsg (contentSize : Nat) : Str :=
  str "File size (" ++ str (Nat.repr ((contentSize + 512) / 1024)) ++
    str "KB) exceeds maximum allowed size (" ++
    str (Nat.repr (MAX_FILE_SIZE / 1024)) ++ str "KB)"

/-- Result of `AsyncWriter.save`. -/
structure SaveResult where
  success : Bool
  path : Str
  error : Option Str
deriving DecidableEq, Repr

/-- Result of `AsyncWriter.delete`. -/
structure DeleteResult where
  success : Bool
  error : Option Str
deriving DecidableEq, Repr

namespace AsyncWriter

/-- Source `AsyncWriter.save`: size check, normalization, optimistic cache
upsert, then launch of the background sync (skipped when a sync for the
path is already in flight). -/
def save (w : World) (category name content : Str) : World × SaveResult :=
  let contentSize := utf8Len content
  if MAX_FILE_SIZE < contentSize then
    (w, ⟨false, [], some (saveErrorMsg contentSize)⟩)
  else
    let path := composePath category name
    let existing := mapGet w.cache path
    let sha := existing.map CacheEntry.sha
    let w' := { w with
      cache := MemoryCache.set w.cache path content (sha.getD (str "pending")) }
    let w'' :=
      if path ∈ w'.pendingWrites then w'
      else { w' with
        pendingWrites := path :: w'.pendingWrites,
        tasks := w'.tasks ++ [⟨path, content, sha, FileOp.save⟩] }
    (w'', ⟨true, path, none⟩)

/-- Source `AsyncWriter.delete`: not-found check, immediate cache removal, then
launch of the background delete. -/
def del (w : World) (path : Str) : World × DeleteResult :=
  match mapGet w.cache path with
  | none => (w, ⟨false, some (str "File not found: " ++ path)⟩)
  | some existing =>
    let w' := { w with cache := mapDelete w.cache path }
    let w'' :=
      if path ∈ w'.pendingWrites then w'
      else { w' with
        pendingWrites := path :: w'.pendingWrites,
        tasks := w'.tasks ++ [⟨path, [], some existing.sha, FileOp.delete⟩] }
    (w'', ⟨true, none⟩)

end AsyncWriter

/-- Source `updateIndexSafe`: one index rebuild; the remote put of `index.json`
is attempted, and on success (`idx = some (content, newSha)`) the cache
entry for `index.json` is overwritten; failure is logged and swallowed. -/
def updateIndexSafe (w : World) (idx : Option (Str × Str)) : World :=
  let w' := { w with
    indexRebuilds := w.indexRebuilds + 1,
    remoteLog := w.remoteLog ++ [RemoteCall.putFile INDEX_PATH] }
  match idx with
  | some (content, newSha) =>
    { w' with cache := MemoryCache.set w'.cache INDEX_PATH content newSha }
  | none => w'

/-- The suspended sync for a path, if any (the `pendingWrites` guard
keeps at most one per path in reachable worlds). -/
def findTask (tasks : List SyncTask) (path : Str) : Option SyncTask :=
  tasks.find? (fun t => decide (t.path = path))

/-- Remove the suspended sync for a path. -/
def removeTask (tasks : List SyncTask) (path : Str) : List SyncTask :=
  tasks.filter (fun t => decide (t.path ≠ path))

/-- Completion of a suspended sync whose remote call succeeded:
for a save, `cache.set(path, content, newSha)` with the content captured
at launch, index rebuild, queue removal; for a delete, index rebuild and
queue removal.  The in-flight marker is cleared. -/
def resolveOk (w : World) (path newSha : Str) (idx : Option (Str × Str)) :
    World :=
  match findTask w.tasks path with
  | none => w
  | some t =>
    match t.operation with
    | FileOp.save =>
      let w1 := { w with
        remoteLog := w.remoteLog ++ [RemoteCall.putFile path],
        cache := MemoryCache.set w.cache path t.content newSha }
      let w2 := updateIndexSafe w1 idx
      { w2 with
        queue := WriteQueue.removeItem w2.queue path,
        pendingWrites := w2.pendingWrites.filter (fun q => decide (q ≠ path)),
        tasks := removeTask w2.tasks path }
    | FileOp.delete =>
      let w1 := { w with
        remoteLog := w.remoteLog ++ [RemoteCall.deleteFile path] }
      let w2 := updateIndexSafe w1 idx
      { w2 with
        queue := WriteQueue.removeItem w2.queue path,
        pendingWrites := w2.pendingWrites.filter (fun q => decide (q ≠ path)),
        tasks := removeTask w2.tasks path }

/-- Completion of a suspended sync whose remote call failed: enqueue for
retry (content for saves, empty content for deletes) and clear the
in-flight marker.  The cache is not touched. -/
def resolveFail (w : World) (path : Str) : World :=
  match findTask w.tasks path with
  | none => w
  | some t =>
    let call :=
      match t.operation with
      | FileOp.save => RemoteCall.putFile path
      | FileOp.delete => RemoteCall.deleteFile path
    let queue' :=
      match t.operation with
      | FileOp.save => WriteQueue.enqueue w.queue path t.content FileOp.save w.clock
      | FileOp.delete => WriteQueue.enqueue w.queue path [] FileOp.delete w.clock
    { w with
      remoteLog := w.remoteLog ++ [call],
      queue := queue',
      pendingWrites := w.pendingWrites.filter (fun q => decide (q ≠ path)),
      tasks := removeTask w.tasks path }

/-- One iteration of the drain loop on one snapshot item, given the
outcome of its remote call (`ok`): saves always call `putFile` (looking
up the current cache sha); deletes call `deleteFile` only when the path
is still cached, otherwise just drop the queue item. -/
def drainStep (w : World) (item : QueueItem) (ok : Bool) : World :=
  match item.operation with
  | FileOp.save =>
    let w1 := { w with remoteLog := w.remoteLog ++ [RemoteCall.putFile item.path] }
    if ok then { w1 with queue := WriteQueue.removeItem w1.queue item.path }
    else { w1 with queue := (WriteQueue.incrementRetry w1.queue item.path).fst }
  | FileOp.delete =>
    match mapGet w.cache item.path with
    | some _ =>
      let w1 :=
        { w with remoteLog := w.remoteLog ++ [RemoteCall.deleteFile item.path] }
      if ok then { w1 with queue := WriteQueue.removeItem w1.queue item.path }
      else { w1 with queue := (WriteQueue.incrementRetry w1.queue item.path).fst }
    | none => { w with queue := WriteQueue.removeItem w.queue item.path }

/-- Whether a drain iteration makes a remote call (consuming an oracle
outcome). -/
def callsRemote (w : World) (item : QueueItem) : Bool :=
  match item.operation with
  | FileOp.save => true
  | FileOp.delete => (mapGet w.cache item.path).isSome

/-- The drain loop over the snapshot, threading the outcome oracle. -/
def drainLoop (oracle : Nat → Bool) : List QueueItem → Nat → World → World
  | [], _, w => w
  | item :: rest, k, w =>
    if callsRemote w item then
      drainLoop oracle rest (k + 1) (drainStep w item (oracle k))
    else drainLoop oracle rest k (drainStep w item true)

/-- Source `AsyncWriter.drainQueue`: snapshot the queue; return immediately when
empty; otherwise process each snapshot item and finish with one index
rebuild. -/
def drainQueue (w : World) (oracle : Nat → Bool) (idx : Option (Str × Str)) :
    World :=
  let items := w.queue
  if items.length = 0 then w
  else updateIndexSafe (drainLoop oracle items 0 w) idx

/-- An externally observable event: an API call, or the completion of a
suspended background sync with its remote outcome, or a queue drain with
its per-call outcomes. -/
inductive Event
  | save (category name content : Str)
  | del (path : Str)
  | syncOk (path newSha : Str) (idx : Option (Str × Str))
  | syncFail (path : Str)
  | drain (oracle : Nat → Bool) (idx : Option (Str × Str))

/-- Apply one event to the world. -/
def exec (w : World) : Event → World
  | .save category name content => (AsyncWriter.save w category name content).fst
  | .del path => (AsyncWriter.del w path).fst
  | .syncOk path newSha idx => resolveOk w path newSha idx
  | .syncFail path => resolveFail w path
  | .drain oracle idx => drainQueue w oracle idx

/-- Apply a sequence of events. -/
def runEvents (w : World) (evs : List Event) : World := evs.foldl exec w

/-! ## Spec-side definitions

Written from the specification's wording, independently of the source,
for the refinement-style claims that compare the two. -/

/-- From the spec: snippet extraction.  If the content's length is at
most 150 the snippet is the content unmodified; otherwise, letting `i`
be the first case-insensitive occurrence of the query, the snippet is
the slice from `max(0, i - 50)` to `min(length, i + queryLength + 100)`,
prefixed with an ellipsis iff the start is after position 0 and suffixed
with one iff the end is before the content's end; if the query does not
occur, the first 150 characters followed by an ellipsis. -/
def snippetSpec (content query : Str) : Str :=
  if content.length ≤ 150 then content
  else
    match firstIdx (lowerStr query) (lowerStr content) with
    | some i =>
      let start : Int := max 0 ((i : Int) - 50)
      let stop : Int :=
        min (content.length : Int) ((i : Int) + query.length + 100)
      (if 0 < start then str "..." else []) ++
        (content.drop start.toNat).take (stop - start).toNat ++
        (if stop < (content.length : Int) then str "..." else [])
    | none => content.take 150 ++ str "..."

/-- From the spec: category normalization — the input lowercased with
every character outside `[a-z0-9-]` replaced by a dash. -/
def specNormCategory (category : Str) : Str :=
  category.map (fun c =>
    let lc := Char.toLower c
    if ('a' ≤ lc ∧ lc ≤ 'z') ∨ ('0' ≤ lc ∧ lc ≤ '9') ∨ lc = '-' then lc
    else '-')

/-- From the spec: name normalization — unchanged if it ends in `.md`,
`.yaml` or `.json`, otherwise with `.md` appended. -/
def specNormName (name : Str) : Str :=
  if List.isSuffixOf (str ".md") name || List.isSuffixOf (str ".yaml") name
      || List.isSuffixOf (str ".json") name then
    name
  else name ++ str ".md"

/-! ## Concrete instances used by counterexamples and witnesses -/

/-- A world whose cache already holds a record for `notes/a.md` with a
real (non-sentinel) revision token. -/
def worldWithRealSha : World :=
  ⟨[(str "notes/a.md", ⟨str "old", str "abc"⟩)], [], [], [], [], 0, 0⟩

/-- The racing event sequence: two saves to the same path in quick
succession (the second while the first sync is still in flight, so its
own sync launch is skipped), then the first sync completes successfully
and writes its captured — older — content back into the cache. -/
def raceEvents : List Event :=
  [Event.save (str "notes") (str "a") (str "v1"),
   Event.save (str "notes") (str "a") (str "v2"),
   Event.syncOk (str "notes/a.md") (str "sha1") none]

/-- Content one byte over the 1 MiB ceiling. -/
def oversizedContent : Str := List.replicate (MAX_FILE_SIZE + 1) 'a'

/-! ## Order properties of the string comparison -/

theorem strLe_total : ∀ a b : Str, strLe a b = true ∨ strLe b a = true
  | [], _ => Or.inl rfl
  | _ :: _, [] => Or.inr rfl
  | a :: s, b :: t => by
    rcases lt_trichotomy a b with h | rfl | h
    · left; simp [strLe, h]
    · rcases strLe_total s t with ih | ih
      · left; simp [strLe, ih]
      · right; simp [strLe, ih]
    · right; simp [strLe, h]

theorem strLe_trans :
    ∀ a b c : Str, strLe a b = true → strLe b c = true → strLe a c = true
  | [], _, _ => fun _ _ => rfl
  | _ :: _, [], _ => by intro h _; simp [strLe] at h
  | _ :: _, _ :: _, [] => by intro _ h; simp [strLe] at h
  | a :: s, b :: t, c :: u => by
    intro h1 h2
    rcases lt_trichotomy a b with hab | rfl | hab
    · rcases lt_trichotomy b c with hbc | rfl | hbc
      · simp [strLe, lt_trans hab hbc]
      · simp [strLe, hab]
      · simp [strLe, hbc, asymm hbc] at h2
    · rcases lt_trichotomy a c with hac | rfl | hac
      · simp [strLe, hac]
      · simp only [strLe, lt_irrefl, if_false] at h1 h2 ⊢
        exact strLe_trans s t u h1 h2
      · simp [strLe, hac, asymm hac] at h2
    · simp [strLe, hab, asymm hab] at h1

theorem strLe_antisymm :
    ∀ a b : Str, strLe a b = true → strLe b a = true → a = b
  | [], [] => fun _ _ => rfl
  | [], _ :: _ => by intro _ h; simp [strLe] at h
  | _ :: _, [] => by intro h _; simp [strLe] at h
  | a :: s, b :: t => by
    intro h1 h2
    rcases lt_trichotomy a b with hab | rfl | hab
    · simp [strLe, hab, asymm hab] at h2
    · simp only [strLe, lt_irrefl, if_false] at h1 h2
      rw [strLe_antisymm s t h1 h2]
    · simp [strLe, hab, asymm hab] at h1

/-! ## The split used for category derivation -/

theorem splitChar_head (sep : Char) :
    ∀ k : Str, ∃ rest,
      splitChar sep k = k.takeWhile (fun c => decide (c ≠ sep)) :: rest
  | [] => ⟨[], rfl⟩
  | c :: t => by
    by_cases h : c = sep
    · exact ⟨splitChar sep t, by simp [splitChar, h, List.takeWhile_cons]⟩
    · obtain ⟨rest, ih⟩ := splitChar_head sep t
      exact ⟨rest, by simp [splitChar, h, ih, List.takeWhile_cons]⟩

theorem splitChar_length (sep : Char) :
    ∀ k : Str, (splitChar sep k).length = 1 + k.count sep
  | [] => by simp [splitChar]
  | c :: t => by
    have ih := splitChar_length sep t
    by_cases h : c = sep
    · simp only [splitChar, if_pos h, List.length_cons, List.count_cons, ih]
      simp [h]
      omega
    · obtain ⟨rest, hsplit⟩ := splitChar_head sep t
      rw [hsplit, List.length_cons] at ih
      simp only [splitChar, if_neg h, hsplit, List.length_cons, List.count_cons]
      simp [h]
      omega

theorem splitChar_one_lt_length_iff (sep : Char) (k : Str) :
    1 < (splitChar sep k).length ↔ sep ∈ k := by
  rw [splitChar_length, ← List.count_pos_iff (a := sep) (l := k)]
  omega

/-! ## Category derivation -/

theorem setAdd_mem (l : List Str) (x a : Str) :
    a ∈ setAdd l x ↔ a ∈ l ∨ a = x := by
  by_cases h : x ∈ l
  · simp only [setAdd, if_pos h]
    constructor
    · exact Or.inl
    · rintro (ha | rfl) <;> [exact ha; exact h]
  · simp [setAdd, if_neg h]

theorem setAdd_nodup (l : List Str) (x : Str) (h : l.Nodup) :
    (setAdd l x).Nodup := by
  by_cases hx : x ∈ l
  · simpa [setAdd, if_pos hx] using h
  · simp [setAdd, if_neg hx, List.nodup_append, h, hx]

theorem catStep_mem (acc : List Str) (kv : Str × CacheEntry) (a : Str) :
    a ∈ MemoryCache.catStep acc kv ↔
      a ∈ acc ∨
        (('/' : Char) ∈ kv.fst ∧
          kv.fst.takeWhile (fun c => decide (c ≠ '/')) = a) := by
  obtain ⟨rest, hsplit⟩ := splitChar_head '/' kv.fst
  have hlen := splitChar_one_lt_length_iff '/' kv.fst
  rw [hsplit] at hlen
  cases rest with
  | nil =>
    have hnoslash : ('/' : Char) ∉ kv.fst := by
      intro hmem
      have := hlen.mpr hmem
      simp at this
    simp [MemoryCache.catStep, hsplit, hnoslash]
  | cons r rs =>
    have hslash : ('/' : Char) ∈ kv.fst := by
      apply hlen.mp
      simp
    simp [MemoryCache.catStep, hsplit, hslash, setAdd_mem, eq_comm]

theorem catFold_mem :
    ∀ (cache : CacheMap) (acc : List Str) (a : Str),
      a ∈ cache.foldl MemoryCache.catStep acc ↔
        a ∈ acc ∨
          ∃ k ∈ cache.map Prod.fst, ('/' : Char) ∈ k ∧
            k.takeWhile (fun c => decide (c ≠ '/')) = a
  | [], acc, a => by simp
  | kv :: rest, acc, a => by
    rw [List.foldl_cons, catFold_mem rest (MemoryCache.catStep acc kv) a, catStep_mem]
    simp only [List.map_cons, List.mem_cons]
    constructor
    · rintro ((ha | hkv) | ⟨k, hk, hs⟩)
      · exact Or.inl ha
      · exact Or.inr ⟨kv.fst, Or.inl rfl, hkv⟩
      · exact Or.inr ⟨k, Or.inr hk, hs⟩
    · rintro (ha | ⟨k, hk | hk, hs⟩)
      · exact Or.inl (Or.inl ha)
      · exact Or.inl (Or.inr (hk ▸ hs))
      · exact Or.inr ⟨k, hk, hs⟩

theorem catStep_nodup (acc : List Str) (kv : Str × CacheEntry)
    (h : acc.Nodup) : (MemoryCache.catStep acc kv).Nodup := by
  unfold MemoryCache.catStep
  rcases splitChar '/' kv.fst with _ | ⟨p0, _ | _⟩
  · exact h
  · exact h
  · exact setAdd_nodup _ _ h

theorem catFold_nodup :
    ∀ (cache : CacheMap) (acc : List Str), acc.Nodup →
      (cache.foldl MemoryCache.catStep acc).Nodup
  | [], _, h => h
  | kv :: rest, acc, h =>
    catFold_nodup rest (MemoryCache.catStep acc kv) (catStep_nodup acc kv h)

theorem sortStr_mem (l : List Str) (a : Str) : a ∈ sortStr l ↔ a ∈ l :=
  (List.perm_insertionSort strLeProp l).mem_iff

theorem sortStr_nodup (l : List Str) (h : l.Nodup) : (sortStr l).Nodup :=
  ((List.perm_insertionSort strLeProp l).nodup_iff).mpr h

theorem sortStr_sorted (l : List Str) : List.Sorted strLeProp (sortStr l) := by
  haveI : IsTotal Str strLeProp := ⟨strLe_total⟩
  haveI : IsTrans Str strLeProp := ⟨strLe_trans⟩
  exact List.sorted_insertionSort strLeProp l

/-- **C3** (amended): for every cache state, `categories()` returns the
distinct first slash-delimited segments of those cached keys that
contain a slash, sorted lexicographically; a key with no slash
contributes nothing (it is not mapped to a "root" category). -/
theorem claim_C3_categories (cache : CacheMap) :
    List.Sorted strLeProp (MemoryCache.categories cache) ∧
    (MemoryCache.categories cache).Nodup ∧
    ∀ a, a ∈ MemoryCache.categories cache ↔
      ∃ k ∈ MemoryCache.keys cache, ('/' : Char) ∈ k ∧
        k.takeWhile (fun c => decide (c ≠ '/')) = a := by
  refine ⟨sortStr_sorted _,
    sortStr_nodup _ (catFold_nodup cache [] List.nodup_nil), ?_⟩
  intro a
  rw [MemoryCache.categories, sortStr_mem, catFold_mem]
  simp only [List.not_mem_nil, false_or]
  exact Iff.rfl

/-- **C3** counterexample to the claim as stated: the key `noslash` is
cached and its first slash-delimited segment is `noslash` itself, yet
`categories()` returns the empty list — slash-free keys are skipped, not
reported under a "root" category. -/
theorem claim_C3_counterexample :
    MemoryCache.categories [(str "noslash", ⟨str "x", str "s"⟩)] = [] ∧
    str "noslash" ∈ MemoryCache.keys [(str "noslash", ⟨str "x", str "s"⟩)] ∧
    (str "noslash").takeWhile (fun c => decide (c ≠ '/')) = str "noslash" := by
  decide

/-! ## The optimistic save -/

theorem mapGet_mapSet_self :
    ∀ (c : CacheMap) (p : Str) (e : CacheEntry), mapGet (mapSet c p e) p = some e
  | [], p, e => by simp [mapSet, mapGet, List.find?_cons]
  | kv :: rest, p, e => by
    by_cases h : kv.fst = p
    · simp [mapSet, if_pos h, mapGet, List.find?_cons]
    · have hd : (decide (kv.fst = p)) = false := by simp [h]
      simp only [mapSet, if_neg h, mapGet, List.find?_cons, hd]
      exact mapGet_mapSet_self rest p e

/-- After the size check passes, `save` upserts the composed path with
the new content and `existingSha ?? 'pending'`; the in-flight guard does
not affect the cache. -/
theorem save_cache_eq (w : World) (category name content : Str)
    (h : ¬ MAX_FILE_SIZE < utf8Len content) :
    (AsyncWriter.save w category name content).fst.cache =
      MemoryCache.set w.cache (composePath category name) content
        (((mapGet w.cache (composePath category name)).map CacheEntry.sha).getD
          (str "pending")) := by
  simp only [AsyncWriter.save, if_neg h]
  split <;> rfl

/-- After the size check passes, `save` returns success with the
composed path. -/
theorem save_result_eq (w : World) (category name content : Str)
    (h : ¬ MAX_FILE_SIZE < utf8Len content) :
    (AsyncWriter.save w category name content).snd =
      ⟨true, composePath category name, none⟩ := by
  simp only [AsyncWriter.save, if_neg h]

/-- **C1** (amended): for accepted content, immediately after `save`
returns (before any background sync completes) the cache record for the
composed path holds the given content; its revision token is the
sentinel `pending` when no record existed for that path, and otherwise
is the prior record's token (the sentinel is not written over an
existing real token). -/
theorem claim_C1_optimistic_upsert (w : World) (category name content : Str)
    (h : utf8Len content ≤ MAX_FILE_SIZE) :
    mapGet (AsyncWriter.save w category name content).fst.cache
        (composePath category name) =
      some ⟨content,
        (mapGet w.cache (composePath category name)).elim (str "pending")
          CacheEntry.sha⟩ := by
  rw [save_cache_eq w category name content (not_lt.mpr h), MemoryCache.set,
    mapGet_mapSet_self]
  cases ho : mapGet w.cache (composePath category name) <;> simp [ho]

/-- **C1** witness: saving into the empty cache yields the `pending`
sentinel. -/
theorem claim_C1_witness :
    utf8Len (str "v1") ≤ MAX_FILE_SIZE ∧
    mapGet (AsyncWriter.save emptyWorld (str "notes") (str "a")
          (str "v1")).fst.cache (composePath (str "notes") (str "a")) =
      some ⟨str "v1", str "pending"⟩ :=
  ⟨by decide,
    claim_C1_optimistic_upsert emptyWorld (str "notes") (str "a") (str "v1")
      (by decide)⟩

/-- **C1** counterexample to the claim as stated: when a record for the
path already exists with the real token `abc`, the record right after
`save` still carries `abc`, not the sentinel `pending` (the source reads
`sha ?? 'pending'` with `sha` the pre-existing token). -/
theorem claim_C1_counterexample :
    (mapGet (AsyncWriter.save worldWithRealSha (str "notes") (str "a")
          (str "new")).fst.cache (str "notes/a.md")).map CacheEntry.sha =
        some (str "abc") ∧
      str "abc" ≠ str "pending" := by
  decide

/-! ## Path composition -/

theorem specNormName_eq (name : Str) : specNormName name = normalizeName name :=
  rfl

theorem specNormCategory_eq (category : Str) :
    specNormCategory category = normalizeCategory category := by
  unfold specNormCategory normalizeCategory
  rw [List.map_map]
  rfl

theorem composePath_eq_spec (category name : Str) :
    composePath category name =
      specNormCategory category ++ str "/" ++ specNormName name := by
  unfold composePath
  rw [specNormCategory_eq, specNormName_eq, List.append_assoc]
  rfl

/-- **C9**: for accepted content, the path reported by `save` (and under
which the content is stored in the cache) is
`normalizedCategory/normalizedName`, where the normalized category is the
input lowercased with every character outside `[a-z0-9-]` replaced by a
dash and the normalized name keeps a `.md`/`.yaml`/`.json` suffix or
gains `.md`. -/
theorem claim_C9_path_composition (w : World) (category name content : Str)
    (h : utf8Len content ≤ MAX_FILE_SIZE) :
    (AsyncWriter.save w category name content).snd.path =
        specNormCategory category ++ str "/" ++ specNormName name ∧
      (mapGet (AsyncWriter.save w category name content).fst.cache
          (specNormCategory category ++ str "/" ++ specNormName name)).map
        CacheEntry.content = some content := by
  have hn := not_lt.mpr h
  constructor
  · rw [save_result_eq w category name content hn]
    exact composePath_eq_spec category name
  · rw [← composePath_eq_spec category name,
      save_cache_eq w category name content hn, MemoryCache.set,
      mapGet_mapSet_self]
    rfl

/-- **C9** witness, including the spec's own example: category
`My Project!` normalizes to `my-project-` and name `notes` gains `.md`. -/
theorem claim_C9_witness :
    utf8Len (str "hello") ≤ MAX_FILE_SIZE ∧
    (AsyncWriter.save emptyWorld (str "My Project!") (str "notes")
        (str "hello")).snd.path = str "my-project-/notes.md" := by
  refine ⟨by decide, ?_⟩
  have h := (claim_C9_path_composition emptyWorld (str "My Project!")
    (str "notes") (str "hello") (by decide)).1
  rw [h]
  decide

/-! ## Size ceiling -/

theorem utf8Len_replicate (n : Nat) : utf8Len (List.replicate n 'a') = n := by
  induction n with
  | zero => rfl
  | succ k ih =>
    rw [List.replicate_succ]
    show utf8CharLen 'a' + utf8Len (List.replicate k 'a') = k + 1
    rw [ih]
    have ha : utf8CharLen 'a' = 1 := rfl
    omega

/-- **C8**: content whose UTF-8 byte length exceeds 1 MiB is rejected
with the descriptive size error, and the whole world — cache, queue,
pending syncs, remote log — is left exactly as it was. -/
theorem claim_C8_oversize_rejected (w : World) (category name content : Str)
    (h : MAX_FILE_SIZE < utf8Len content) :
    AsyncWriter.save w category name content =
      (w, ⟨false, [], some (saveErrorMsg (utf8Len content))⟩) := by
  simp only [AsyncWriter.save, if_pos h]

/-- **C8** witness: a content of 1 MiB plus one byte is rejected and
the world is untouched. -/
theorem claim_C8_witness :
    MAX_FILE_SIZE < utf8Len oversizedContent ∧
    AsyncWriter.save emptyWorld (str "notes") (str "a") oversizedContent =
      (emptyWorld,
        ⟨false, [], some (saveErrorMsg (utf8Len oversizedContent))⟩) := by
  have hlen : utf8Len oversizedContent = MAX_FILE_SIZE + 1 :=
    utf8Len_replicate (MAX_FILE_SIZE + 1)
  have hlt : MAX_FILE_SIZE < utf8Len oversizedContent := by omega
  exact ⟨hlt, claim_C8_oversize_rejected emptyWorld (str "notes") (str "a")
    oversizedContent hlt⟩

/-! ## Draining an empty queue -/

/-- **C7**: when the queue snapshot is empty, `drainQueue` returns
before doing anything: the world (including the remote-call log and the
index-rebuild count) is returned unchanged. -/
theorem claim_C7_drain_empty_noop (w : World) (oracle : Nat → Bool)
    (idx : Option (Str × Str)) (h : w.queue = []) :
    drainQueue w oracle idx = w := by
  simp [drainQueue, h]

/-- **C7** witness. -/
theorem claim_C7_witness :
    emptyWorld.queue = [] ∧
      drainQueue emptyWorld (fun _ => true) none = emptyWorld :=
  ⟨rfl, claim_C7_drain_empty_noop emptyWorld (fun _ => true) none rfl⟩

/-! ## The read-your-writes race -/

/-- **C2**: evaluation of the code at the failing interleaving.  Two
accepted saves write `v1` then `v2` to `notes/a.md`; the second runs
while the first background sync is still in flight, so its own sync is
skipped; the first sync then completes successfully and `syncToGitHub`
writes its captured content back: `cache.set(path, content, newSha)`
restores `v1`.  The path was never deleted, yet a read after the last
save returns `v1`, not the last-saved `v2` — read-your-writes is
violated by the in-flight-sync race that §5 of the spec claims preserves
"correctness of the visible read path". -/
theorem claim_C2_race_counterexample :
    (mapGet (runEvents emptyWorld raceEvents).cache (str "notes/a.md")).map
        CacheEntry.content = some (str "v1") ∧
      str "v1" ≠ str "v2" := by
  decide

/-! ## Queue invariants -/

theorem bumpFirst_map_path (p : Str) :
    ∀ items : List QueueItem,
      (WriteQueue.bumpFirst p items).map QueueItem.path =
        items.map QueueItem.path
  | [] => rfl
  | i :: rest => by
    by_cases h : i.path = p
    · simp [WriteQueue.bumpFirst, h]
    · simp [WriteQueue.bumpFirst, h, bumpFirst_map_path p rest]

theorem bumpFirst_filter_ne (p : Str) :
    ∀ items : List QueueItem,
      (WriteQueue.bumpFirst p items).filter (fun i => decide (i.path ≠ p)) =
        items.filter (fun i => decide (i.path ≠ p))
  | [] => rfl
  | i :: rest => by
    have ih := bumpFirst_filter_ne p rest
    by_cases h : i.path = p
    · simp [WriteQueue.bumpFirst, h, List.filter_cons]
    · simp only [WriteQueue.bumpFirst, if_neg h, List.filter_cons]
      simp only [decide_not] at ih ⊢
      simp [h, ih]

theorem find?_bumpFirst (p : Str) :
    ∀ (items : List QueueItem) (item : QueueItem),
      items.find? (fun i => decide (i.path = p)) = some item →
      (WriteQueue.bumpFirst p items).find? (fun i => decide (i.path = p)) =
        some { item with retryCount := item.retryCount + 1 }
  | [], item => by simp
  | i :: rest, item => by
    by_cases h : i.path = p
    · intro hf
      simp [List.find?_cons, h] at hf
      subst hf
      simp [WriteQueue.bumpFirst, h, List.find?_cons]
    · intro hf
      have hd : (decide (i.path = p)) = false := by simp [h]
      rw [List.find?_cons, hd] at hf
      simp only [WriteQueue.bumpFirst, if_neg h]
      rw [List.find?_cons, hd]
      exact find?_bumpFirst p rest item hf

theorem bumpFirst_mem_of_find (p : Str) :
    ∀ (items : List QueueItem) (it : QueueItem),
      items.find? (fun i => decide (i.path = p)) = some it →
      ∀ j ∈ WriteQueue.bumpFirst p items,
        j ∈ items ∨ j = { it with retryCount := it.retryCount + 1 }
  | [], it => by simp
  | i :: rest, it => by
    by_cases h : i.path = p
    · intro hf j hj
      simp [List.find?_cons, h] at hf
      subst hf
      simp only [WriteQueue.bumpFirst, if_pos h, List.mem_cons] at hj
      rcases hj with rfl | hj
      · right; rfl
      · left; exact List.mem_cons_of_mem _ hj
    · intro hf j hj
      have hd : (decide (i.path = p)) = false := by simp [h]
      rw [List.find?_cons, hd] at hf
      simp only [WriteQueue.bumpFirst, if_neg h, List.mem_cons] at hj
      rcases hj with rfl | hj
      · left; exact List.mem_cons_self _ _
      · rcases bumpFirst_mem_of_find p rest it hf j hj with hm | he
        · left; exact List.mem_cons_of_mem _ hm
        · right; exact he

theorem enqueue_paths_nodup (items : List QueueItem) (p c : Str) (o : FileOp)
    (t : Nat) (h : PathsNodup items) :
    PathsNodup (WriteQueue.enqueue items p c o t) := by
  unfold PathsNodup WriteQueue.enqueue
  rw [List.map_append]
  refine List.Nodup.append ?_ ?_ ?_
  · exact h.sublist ((List.filter_sublist items).map QueueItem.path)
  · simp
  · intro a ha hb
    simp only [List.map_cons, List.map_nil, List.mem_singleton] at hb
    subst hb
    rcases List.mem_map.mp ha with ⟨i, hi, hip⟩
    have := List.of_mem_filter hi
    simp at this
    exact this hip

theorem qstep_paths_nodup (items : List QueueItem) (op : QOp)
    (h : PathsNodup items) : PathsNodup (qstep items op) := by
  cases op with
  | enq p c o t => exact enqueue_paths_nodup items p c o t h
  | rem p => exact h.sublist ((List.filter_sublist items).map QueueItem.path)
  | inc p =>
    show PathsNodup (WriteQueue.incrementRetry items p).fst
    unfold WriteQueue.incrementRetry
    cases hf : items.find? (fun i => decide (i.path = p)) with
    | none => exact h
    | some item =>
      by_cases hm : MAX_RETRIES ≤ item.retryCount + 1
      · simp only [if_pos hm]
        show PathsNodup ((WriteQueue.bumpFirst p items).filter
          (fun i => decide (i.path ≠ p)))
        rw [PathsNodup, bumpFirst_filter_ne]
        exact h.sublist ((List.filter_sublist items).map QueueItem.path)
      · simp only [if_neg hm]
        show PathsNodup (WriteQueue.bumpFirst p items)
        rw [PathsNodup, bumpFirst_map_path]
        exact h

theorem qrun_paths_nodup :
    ∀ (ops : List QOp) (items : List QueueItem),
      PathsNodup items → PathsNodup (qrun items ops)
  | [], _, h => h
  | op :: ops, items, h =>
    qrun_paths_nodup ops (qstep items op) (qstep_paths_nodup items op h)

theorem enqueue_retry_bounded (items : List QueueItem) (p c : Str)
    (o : FileOp) (t : Nat) (h : RetryBounded items) :
    RetryBounded (WriteQueue.enqueue items p c o t) := by
  intro i hi
  unfold WriteQueue.enqueue at hi
  rcases List.mem_append.mp hi with hm | hm
  · exact h i (List.mem_of_mem_filter hm)
  · simp only [List.mem_singleton] at hm
    subst hm
    show (0 : Nat) < MAX_RETRIES
    decide

theorem qstep_retry_bounded (items : List QueueItem) (op : QOp)
    (h : RetryBounded items) : RetryBounded (qstep items op) := by
  cases op with
  | enq p c o t => exact enqueue_retry_bounded items p c o t h
  | rem p => exact fun i hi => h i (List.mem_of_mem_filter hi)
  | inc p =>
    show RetryBounded (WriteQueue.incrementRetry items p).fst
    unfold WriteQueue.incrementRetry
    cases hf : items.find? (fun i => decide (i.path = p)) with
    | none => exact h
    | some item =>
      have hip : item.path = p := by
        have := List.find?_some hf
        simpa using this
      by_cases hm : MAX_RETRIES ≤ item.retryCount + 1
      · simp only [if_pos hm]
        intro j hj
        have hj' := List.mem_of_mem_filter hj
        have hjp : j.path ≠ p := by
          have := List.of_mem_filter hj
          simpa using this
        rcases bumpFirst_mem_of_find p items item hf j hj' with hmem | rfl
        · exact h j hmem
        · exact absurd hip hjp
      · simp only [if_neg hm]
        intro j hj
        rcases bumpFirst_mem_of_find p items item hf j hj with hmem | rfl
        · exact h j hmem
        · show item.retryCount + 1 < MAX_RETRIES
          omega

theorem qrun_retry_bounded :
    ∀ (ops : List QOp) (items : List QueueItem),
      RetryBounded items → RetryBounded (qrun items ops)
  | [], _, h => h
  | op :: ops, items, h =>
    qrun_retry_bounded ops (qstep items op) (qstep_retry_bounded items op h)

/-- **C4**: `enqueue` first removes any existing item for the path and
appends a fresh item with `retryCount 0` (so the result holds exactly
one item for that path); path-uniqueness is preserved by every queue
operation and holds in every state reachable from the empty queue. -/
theorem claim_C4_queue_uniqueness :
    (∀ (items : List QueueItem) (p c : Str) (o : FileOp) (t : Nat),
      WriteQueue.enqueue items p c o t =
        items.filter (fun i => decide (i.path ≠ p)) ++ [⟨p, c, o, t, 0⟩] ∧
      (WriteQueue.enqueue items p c o t).filter
          (fun i => decide (i.path = p)) = [⟨p, c, o, t, 0⟩]) ∧
    (∀ (items : List QueueItem) (op : QOp),
      PathsNodup items → PathsNodup (qstep items op)) ∧
    (∀ ops : List QOp, PathsNodup (qrun [] ops)) := by
  refine ⟨fun items p c o t => ⟨rfl, ?_⟩, qstep_paths_nodup,
    fun ops => qrun_paths_nodup ops [] List.nodup_nil⟩
  rw [WriteQueue.enqueue, List.filter_append]
  have h1 : (items.filter (fun i => decide (i.path ≠ p))).filter
      (fun i => decide (i.path = p)) = [] := by
    rw [List.filter_eq_nil_iff]
    intro i hi
    have := List.of_mem_filter hi
    simp at this ⊢
    exact this
  rw [h1]
  simp

/-- **C4** witness: uniqueness is preserved through a concrete step and
holds for a concrete operation sequence from the empty queue. -/
theorem claim_C4_witness :
    PathsNodup (qstep [⟨str "a/b", str "x", FileOp.save, 0, 0⟩]
        (QOp.enq (str "a/b") (str "y") FileOp.save 1)) ∧
      PathsNodup (qrun [] [QOp.enq (str "a/b") (str "x") FileOp.save 0,
        QOp.enq (str "a/b") (str "y") FileOp.save 1]) :=
  ⟨claim_C4_queue_uniqueness.2.1 _ _
      (by show (List.map QueueItem.path _).Nodup; decide),
    claim_C4_queue_uniqueness.2.2 _⟩

/-- **C5**: `incrementRetry` returns `(items, false)` when the path is
absent; when present it bumps the first matching item's `retryCount`,
and if the new count meets or exceeds `MAX_RETRIES = 3` it drops the
item and returns false, otherwise it keeps it and returns true; the
retry bound `retryCount < 3` is preserved by every queue operation and
holds in every state reachable from the empty queue. -/
theorem claim_C5_retry_bound :
    (∀ (items : List QueueItem) (p : Str),
      items.find? (fun i => decide (i.path = p)) = none →
      WriteQueue.incrementRetry items p = (items, false)) ∧
    (∀ (items : List QueueItem) (p : Str) (item : QueueItem),
      items.find? (fun i => decide (i.path = p)) = some item →
      MAX_RETRIES ≤ item.retryCount + 1 →
      WriteQueue.incrementRetry items p =
        (WriteQueue.removeItem items p, false)) ∧
    (∀ (items : List QueueItem) (p : Str) (item : QueueItem),
      items.find? (fun i => decide (i.path = p)) = some item →
      item.retryCount + 1 < MAX_RETRIES →
      (WriteQueue.incrementRetry items p).snd = true ∧
      (WriteQueue.incrementRetry items p).fst.find?
          (fun i => decide (i.path = p)) =
        some { item with retryCount := item.retryCount + 1 } ∧
      WriteQueue.removeItem (WriteQueue.incrementRetry items p).fst p =
        WriteQueue.removeItem items p) ∧
    (∀ (items : List QueueItem) (op : QOp),
      RetryBounded items → RetryBounded (qstep items op)) ∧
    (∀ ops : List QOp, RetryBounded (qrun [] ops)) := by
  refine ⟨?_, ?_, ?_, qstep_retry_bounded,
    fun ops => qrun_retry_bounded ops [] (fun i hi => absurd hi
      (List.not_mem_nil i))⟩
  · intro items p hf
    simp [WriteQueue.incrementRetry, hf]
  · intro items p item hf hm
    have hb := bumpFirst_filter_ne p items
    simp only [WriteQueue.incrementRetry, hf, if_pos hm,
      WriteQueue.removeItem]
    rw [hb]
  · intro items p item hf hm
    have hnm : ¬ MAX_RETRIES ≤ item.retryCount + 1 := by omega
    refine ⟨?_, ?_, ?_⟩
    · simp [WriteQueue.incrementRetry, hf, if_neg hnm]
    · simp only [WriteQueue.incrementRetry, hf, if_neg hnm]
      exact find?_bumpFirst p items item hf
    · simp only [WriteQueue.incrementRetry, hf, if_neg hnm]
      exact bumpFirst_filter_ne p items

/-- **C5** witness: the absent, dropping and keeping cases at concrete
queues, and the reachable-state bound for a concrete sequence. -/
theorem claim_C5_witness :
    WriteQueue.incrementRetry [] (str "p") = ([], false) ∧
    WriteQueue.incrementRetry [⟨str "p", str "c", FileOp.save, 0, 2⟩]
        (str "p") =
      (WriteQueue.removeItem [⟨str "p", str "c", FileOp.save, 0, 2⟩]
        (str "p"), false) ∧
    (WriteQueue.incrementRetry [⟨str "p", str "c", FileOp.save, 0, 0⟩]
      (str "p")).snd = true ∧
    RetryBounded (qrun [] [QOp.enq (str "p") (str "c") FileOp.save 0,
      QOp.inc (str "p")]) :=
  ⟨claim_C5_retry_bound.1 [] (str "p") (by decide),
    claim_C5_retry_bound.2.1 _ (str "p") ⟨str "p", str "c", FileOp.save, 0, 2⟩
      (by decide) (by decide),
    (claim_C5_retry_bound.2.2.1 _ (str "p")
      ⟨str "p", str "c", FileOp.save, 0, 0⟩ (by decide) (by decide)).1,
    claim_C5_retry_bound.2.2.2.2 _⟩

/-! ## Snippet extraction -/

theorem extractSnippet_some_eq_spec (content query : Str) (i : Nat)
    (hi : firstIdx (lowerStr query) (lowerStr content) = some i) :
    MemoryCache.extractSnippet content query (some i) =
      snippetSpec content query := by
  by_cases hlen : content.length ≤ 150
  · simp [MemoryCache.extractSnippet, snippetSpec, hlen]
  · simp only [MemoryCache.extractSnippet, snippetSpec, if_neg hlen, hi]
    have h1 : (max 0 ((i : Int) - 50)).toNat = i - 50 := by omega
    have h2 :
        (min (content.length : Int) ((i : Int) + query.length + 100) -
            max 0 ((i : Int) - 50)).toNat =
          min content.length (i + query.length + 100) - (i - 50) := by
      omega
    have h3 : ((0 : Int) < max 0 ((i : Int) - 50)) ↔ 0 < i - 50 := by omega
    have h4 :
        (min (content.length : Int) ((i : Int) + query.length + 100) <
            (content.length : Int)) ↔
          min content.length (i + query.length + 100) < content.length := by
      omega
    by_cases hpre : 0 < i - 50 <;>
      by_cases hsuf :
        min content.length (i + query.length + 100) < content.length <;>
      simp [jsSlice, h1, h2, h3, h4, hpre, hsuf, List.append_assoc]

/-- **C6**: the source's snippet extraction coincides with the spec's
description, both when the caller lets it locate the first
case-insensitive occurrence itself (`matchIndex` omitted) and when the
caller passes that occurrence in (as `search` does for content hits). -/
theorem claim_C6_snippet (content query : Str) :
    MemoryCache.extractSnippet content query none =
        snippetSpec content query ∧
      ∀ i, firstIdx (lowerStr query) (lowerStr content) = some i →
        MemoryCache.extractSnippet content query (some i) =
          snippetSpec content query := by
  refine ⟨?_, fun i hi => extractSnippet_some_eq_spec content query i hi⟩
  by_cases hlen : content.length ≤ 150
  · simp [MemoryCache.extractSnippet, snippetSpec, hlen]
  · cases hidx : firstIdx (lowerStr query) (lowerStr content) with
    | none =>
      simp [MemoryCache.extractSnippet, snippetSpec, if_neg hlen, hidx,
        jsSlice]
    | some i =>
      rw [← extractSnippet_some_eq_spec content query i hidx]
      simp [MemoryCache.extractSnippet, hidx]

/-- **C6** witness: a 160-character content in which the query occurs at
position 0. -/
theorem claim_C6_witness :
    firstIdx (lowerStr (str "a")) (lowerStr (List.replicate 160 'a')) =
        some 0 ∧
      MemoryCache.extractSnippet (List.replicate 160 'a') (str "a")
          (some 0) =
        snippetSpec (List.replicate 160 'a') (str "a") :=
  ⟨by decide,
    (claim_C6_snippet (List.replicate 160 'a') (str "a")).2 0 (by decide)⟩

/-! ## Search with the empty query -/

theorem firstIdx_nil (hay : Str) : firstIdx [] hay = some 0 := by
  cases hay <;> rfl

theorem containsSub_nil (hay : Str) : containsSub hay [] = true := by
  rw [containsSub, firstIdx_nil]
  rfl

theorem extractSnippet_nil_query (content : Str) :
    MemoryCache.extractSnippet content [] none =
      if content.length ≤ 150 then content
      else content.take 100 ++ str "..." := by
  by_cases hlen : content.length ≤ 150
  · simp [MemoryCache.extractSnippet, hlen]
  · have hf : firstIdx (lowerStr []) (lowerStr content) = some 0 :=
      firstIdx_nil _
    have hmin : min content.length (0 + List.length ([] : Str) + 100) = 100 :=
      by simp; omega
    have hsuf : (100 : Nat) < content.length := by omega
    simp only [MemoryCache.extractSnippet, if_neg hlen, hf]
    simp [jsSlice, hmin, hsuf, hlen, Nat.min_comm]

/-- **C10**: the empty query path-matches every cached record, so
`search` returns exactly one result per record in cache iteration
(insertion) order; the snippet is the whole content when its length is
at most 150 and otherwise its first 100 characters followed by an
ellipsis (the empty query occurs at offset 0, so the window is
`[0, 100)`). -/
theorem filterMapSome_eq_map {α β : Type} (g : α → β) :
    ∀ l : List α, List.filterMap (fun a => some (g a)) l = l.map g
  | [] => rfl
  | a :: l => by simp [List.filterMap_cons, filterMapSome_eq_map g l]

theorem claim_C10_empty_query_search (cache : CacheMap) :
    MemoryCache.search cache [] =
      cache.map (fun kv =>
        ⟨kv.fst,
          if kv.snd.content.length ≤ 150 then kv.snd.content
          else kv.snd.content.take 100 ++ str "..."⟩) := by
  simp only [MemoryCache.search]
  simp [containsSub_nil, extractSnippet_nil_query, lowerStr]
  exact filterMapSome_eq_map _ cache
